/-
  Verification of the `binsearchtree` repository.

  The repository contains three variants of a binary search tree:
  * `src/lib.rs`   : a boxed-recursive tree (`Tree`/`Node`) with insert, get,
                     len, an explicit-stack in-order iterator, and the local
                     rotation operators `rotate_r` / `rotate_l`;
  * `src/ltree.rs` : an arena-indexed tree (`LTree`/`LNode`) whose nodes live
                     in a growable slot vector with a free list, children are
                     referenced by slot index;
  * `src/tree.rs` + `src/node.rs` : an older boxed variant with a cached size
                     counter.

  Each variant is shallowly embedded below, in its own namespace
  (`Boxed`, `Arena`, `TR`).  Rust's `Ord::cmp` is modelled by `compare`
  of a `LinearOrder`, `Option<Box<T>>` by `Option`-free constructors or
  `Option`, and `Vec<T>` by `List` (push = append at the end, pop = remove
  the last element).
-/
import Mathlib

set_option maxHeartbeats 1000000
set_option linter.unusedSectionVars false

namespace Boxed

/-- The boxed tree of `src/lib.rs`.  A Rust `Option<Box<Node<K,V>>>` is the
whole type; `nil` is `None` and `node k v l r` is `Some(Node { k, v, l, r })`. -/
inductive Tree (K V : Type) where
  | nil : Tree K V
  | node (k : K) (v : V) (l r : Tree K V) : Tree K V
deriving DecidableEq

variable {K V : Type}

/-- Left child of the root (`Node.l`, with `None` mapped to `nil`). -/
def Tree.left : Tree K V → Tree K V
  | .nil => .nil
  | .node _ _ l _ => l

/-- Right child of the root (`Node.r`, with `None` mapped to `nil`). -/
def Tree.right : Tree K V → Tree K V
  | .nil => .nil
  | .node _ _ _ r => r

/-- `Tree::insert` of `src/lib.rs` fused with `Node::insert`: the `nil` case is
`Tree::insert`'s `None` branch (make a fresh root node), the `node` case is
`Node::insert` (`self.k.cmp(&k)`: `Greater` descends/attaches left, `Equal`
replaces the value and returns the old one, `Less` descends/attaches right).
Returns the new tree together with the replaced value. -/
def Tree.insert [LinearOrder K] : Tree K V → K → V → Tree K V × Option V
  | .nil, k, v => (.node k v .nil .nil, none)
  | .node nk nv l r, k, v =>
    match compare nk k with
    | .gt =>
      let p := l.insert k v
      (.node nk nv p.1 r, p.2)
    | .eq => (.node nk v l r, some nv)
    | .lt =>
      let p := r.insert k v
      (.node nk nv l p.1, p.2)

/-- `Tree::get` of `src/lib.rs` fused with `Node::get` (`self.k.borrow().cmp(k)`:
`Greater` descends left, `Equal` returns the value, `Less` descends right);
the `nil` case is the `and_then` on an absent root/child. -/
def Tree.get [LinearOrder K] : Tree K V → K → Option V
  | .nil, _ => none
  | .node nk nv l r, k =>
    match compare nk k with
    | .gt => l.get k
    | .eq => some nv
    | .lt => r.get k

/-- `Tree::len` of `src/lib.rs` fused with `Node::len`
(`l.len() + 1 + r.len()`, `0` for an absent root). -/
def Tree.len : Tree K V → Nat
  | .nil => 0
  | .node _ _ l r => l.len + 1 + r.len

/-- In-order key/value pairs of the tree (left, node, right). -/
def Tree.inorder : Tree K V → List (K × V)
  | .nil => []
  | .node k v l r => l.inorder ++ (k, v) :: r.inorder

/-- In-order keys of the tree. -/
def Tree.keys (t : Tree K V) : List K := t.inorder.map Prod.fst

/-- The BST ordering invariant as the spec states it: at every node, every key
in the left subtree is strictly less than the node's key and every key in the
right subtree is strictly greater. -/
def Tree.bst [LinearOrder K] : Tree K V → Bool
  | .nil => true
  | .node k _ l r =>
    (l.keys.all fun x => decide (x < k)) &&
    (r.keys.all fun x => decide (k < x)) &&
    l.bst && r.bst

/-- `rotate_r` of `src/lib.rs`: `None` root and a root without a left child are
left unchanged; otherwise the left child becomes the new root, the old root
becomes its right child, and the pivot's old right subtree becomes the old
root's left subtree. -/
def rotate_r : Tree K V → Tree K V
  | .nil => .nil
  | .node k v .nil r => .node k v .nil r
  | .node k v (.node lk lv ll lr) r => .node lk lv ll (.node k v lr r)

/-- `rotate_l` of `src/lib.rs`, the mirror image of `rotate_r`. -/
def rotate_l : Tree K V → Tree K V
  | .nil => .nil
  | .node k v l .nil => .node k v l .nil
  | .node k v l (.node rk rv rl rr) => .node rk rv (.node k v l rl) rr

/-- Number of nodes of the tree (used as a termination measure). -/
def Tree.size : Tree K V → Nat
  | .nil => 0
  | .node _ _ l r => l.size + 1 + r.size

/-- In-order list of node subtrees (each emitted element is the subtree rooted
at the emitted node), mirroring `NodeIter`'s item type `&Node<K, V>`. -/
def Tree.inorderNodes : Tree K V → List (Tree K V)
  | .nil => []
  | .node k v l r => l.inorderNodes ++ Tree.node k v l r :: r.inorderNodes

/-- The state of `NodeIter` of `src/lib.rs`: the `curr` cursor and the explicit
stack.  The head of the list models the top of the Rust `Vec` stack. -/
structure IterSt (K V : Type) where
  curr : Tree K V
  stack : List (Tree K V)
deriving DecidableEq

/-- The `while let Some(curr) = self.curr` loop of `NodeIter::next`: push the
cursor and descend into its left child until the cursor is absent. -/
def pushLeft : Tree K V → List (Tree K V) → List (Tree K V)
  | .nil, st => st
  | .node k v l r, st => pushLeft l (Tree.node k v l r :: st)

/-- One step of `NodeIter::next`: run the left-descent loop, then pop the
stack; the popped node is emitted and the cursor moves to its right child.
`none` models the iterator's exhausted `None` answer. -/
def iterNext (s : IterSt K V) : Option (Tree K V × IterSt K V) :=
  match pushLeft s.curr s.stack with
  | [] => none
  | t :: rest => some (t, ⟨t.right, rest⟩)

/-- Measure for the iterator: nodes still to be emitted. -/
def stackM : List (Tree K V) → Nat
  | [] => 0
  | m :: rest => 1 + m.right.size + stackM rest

/-- Measure of an iterator state. -/
def IterSt.meas (s : IterSt K V) : Nat := s.curr.size + stackM s.stack

theorem stackM_pushLeft (c : Tree K V) (st : List (Tree K V)) :
    stackM (pushLeft c st) = c.size + stackM st := by
  induction c generalizing st with
  | nil => simp [pushLeft, Tree.size]
  | node k v l r ihl ihr =>
    simp only [pushLeft, ihl, stackM, Tree.right, Tree.size]
    omega

theorem iterNext_meas {s : IterSt K V} {t : Tree K V} {s' : IterSt K V}
    (h : iterNext s = some (t, s')) : s'.meas < s.meas := by
  unfold iterNext at h
  rcases hp : pushLeft s.curr s.stack with _ | ⟨m, rest⟩
  · rw [hp] at h; exact absurd h (by simp)
  · rw [hp] at h
    have hm : stackM (pushLeft s.curr s.stack) = s.curr.size + stackM s.stack :=
      stackM_pushLeft _ _
    rw [hp] at hm
    simp only [Option.some.injEq, Prod.mk.injEq] at h
    rcases h with ⟨rfl, rfl⟩
    simp only [IterSt.meas, stackM] at hm ⊢
    omega

/-- The full sequence of nodes produced by repeatedly calling
`NodeIter::next` from a given state. -/
def iterNodes (s : IterSt K V) : List (Tree K V) :=
  match h : iterNext s with
  | none => []
  | some (n, s') =>
    have := iterNext_meas h
    n :: iterNodes s'
termination_by s.meas

/-- Projection of an emitted node to its key/value pair, modelling
`Iter::next`'s `map(|node| (&node.k, &node.v))` (a `nil` is never emitted). -/
def nodePair : Tree K V → Option (K × V)
  | .nil => none
  | .node k v _ _ => some (k, v)

/-- The key/value pairs produced by `Iter` (which maps each emitted node to
`(&node.k, &node.v)`), starting from `Iter::new`'s state: cursor at the root,
empty stack. -/
def iterPairs (t : Tree K V) : List (K × V) :=
  (iterNodes ⟨t, []⟩).filterMap nodePair

/-- Building a tree by a sequence of `insert` calls starting from the empty
tree, processing the list left to right. -/
def build [LinearOrder K] (ops : List (K × V)) : Tree K V :=
  ops.foldl (fun t p => (t.insert p.1 p.2).1) .nil

/-- The value attached to the last occurrence of a key in an operation
sequence (the most recently inserted value for that key). -/
def lastVal [LinearOrder K] (ops : List (K × V)) (k : K) : Option V :=
  ops.foldl (fun acc p => if p.1 = k then some p.2 else acc) none

section BoxedLemmas

variable [LinearOrder K]

theorem insert_snd_eq_get (t : Tree K V) (k : K) (v : V) :
    (t.insert k v).2 = t.get k := by
  induction t with
  | nil => simp [Tree.insert, Tree.get]
  | node nk nv l r ihl ihr =>
    rcases h : compare nk k with _ | _ | _ <;>
      simp [Tree.insert, Tree.get, h, ihl, ihr]

theorem get_insert_self (t : Tree K V) (k : K) (v : V) :
    (t.insert k v).1.get k = some v := by
  induction t with
  | nil =>
    have h : compare k k = .eq := compare_eq_iff_eq.mpr rfl
    simp [Tree.insert, Tree.get, h]
  | node nk nv l r ihl ihr =>
    rcases h : compare nk k with _ | _ | _ <;>
      simp [Tree.insert, Tree.get, h, ihl, ihr]

theorem get_insert_ne (t : Tree K V) {k q : K} (v : V) (hne : q ≠ k) :
    (t.insert k v).1.get q = t.get q := by
  induction t with
  | nil =>
    have h : compare k q ≠ .eq := fun hc => hne (compare_eq_iff_eq.mp hc).symm
    rcases hc : compare k q with _ | _ | _
    · simp [Tree.insert, Tree.get, hc]
    · exact absurd hc h
    · simp [Tree.insert, Tree.get, hc]
  | node nk nv l r ihl ihr =>
    rcases h : compare nk k with _ | _ | _
    · simp [Tree.insert, Tree.get, h, ihr]
    · have hk : nk = k := compare_eq_iff_eq.mp h
      have hq : compare nk q ≠ .eq := fun hc =>
        hne ((compare_eq_iff_eq.mp hc).symm.trans hk)
      rcases hc : compare nk q with _ | _ | _
      · simp [Tree.insert, Tree.get, h, hc]
      · exact absurd hc hq
      · simp [Tree.insert, Tree.get, h, hc]
    · simp [Tree.insert, Tree.get, h, ihl]

theorem len_insert_of_found (t : Tree K V) (k : K) (v : V)
    (h : (t.insert k v).2.isSome) : (t.insert k v).1.len = t.len := by
  induction t with
  | nil => simp [Tree.insert] at h
  | node nk nv l r ihl ihr =>
    rcases hc : compare nk k with _ | _ | _
    · simp only [Tree.insert, hc] at h ⊢
      have := ihr (by simpa using h)
      simp [Tree.len, this]
    · simp [Tree.insert, hc, Tree.len]
    · simp only [Tree.insert, hc] at h ⊢
      have := ihl (by simpa using h)
      simp [Tree.len, this]

theorem keys_node (k : K) (v : V) (l r : Tree K V) :
    (Tree.node k v l r).keys = l.keys ++ k :: r.keys := by
  simp [Tree.keys, Tree.inorder]

theorem mem_keys_insert {t : Tree K V} {k x : K} {v : V}
    (h : x ∈ (t.insert k v).1.keys) : x ∈ t.keys ∨ x = k := by
  induction t with
  | nil =>
    simp [Tree.insert, Tree.keys, Tree.inorder] at h
    exact Or.inr h
  | node nk nv l r ihl ihr =>
    rcases hc : compare nk k with _ | _ | _ <;>
      simp only [Tree.insert, hc] at h
    · rw [keys_node] at h
      rcases List.mem_append.mp h with hx | hx
      · exact Or.inl (by rw [keys_node]; exact List.mem_append.mpr (Or.inl hx))
      · rcases List.mem_cons.mp hx with hx | hx
        · exact Or.inl (by rw [keys_node]; simp [hx])
        · rcases ihr hx with hx' | hx'
          · exact Or.inl (by rw [keys_node]; simp [Or.inr (Or.inr hx')])
          · exact Or.inr hx'
    · rw [keys_node] at h
      rw [keys_node]
      exact Or.inl h
    · rw [keys_node] at h
      rcases List.mem_append.mp h with hx | hx
      · rcases ihl hx with hx' | hx'
        · exact Or.inl (by rw [keys_node]; exact List.mem_append.mpr (Or.inl hx'))
        · exact Or.inr hx'
      · exact Or.inl (by rw [keys_node]; exact List.mem_append.mpr (Or.inr hx))

theorem bst_node_iff {k : K} {v : V} {l r : Tree K V} :
    (Tree.node k v l r).bst = true ↔
      (∀ x ∈ l.keys, x < k) ∧ (∀ y ∈ r.keys, k < y) ∧ l.bst = true ∧ r.bst = true := by
  simp [Tree.bst, List.all_eq_true, Bool.and_eq_true, and_assoc]

theorem bst_iff_pairwise (t : Tree K V) :
    t.bst = true ↔ t.keys.Pairwise (· < ·) := by
  induction t with
  | nil => simp [Tree.bst, Tree.keys, Tree.inorder]
  | node nk nv l r ihl ihr =>
    rw [bst_node_iff, keys_node, List.pairwise_append, List.pairwise_cons, ihl, ihr]
    constructor
    · rintro ⟨hl, hr, pl, pr⟩
      refine ⟨pl, ⟨hr, pr⟩, ?_⟩
      intro x hx y hy
      rcases List.mem_cons.mp hy with rfl | hy
      · exact hl x hx
      · exact lt_trans (hl x hx) (hr y hy)
    · rintro ⟨pl, ⟨hr, pr⟩, hcross⟩
      exact ⟨fun x hx => hcross x hx nk (List.mem_cons_self _ _), hr, pl, pr⟩

theorem bst_insert {t : Tree K V} (k : K) (v : V) (h : t.bst = true) :
    (t.insert k v).1.bst = true := by
  induction t with
  | nil => simp [Tree.insert, Tree.bst, Tree.keys, Tree.inorder]
  | node nk nv l r ihl ihr =>
    rw [bst_node_iff] at h
    obtain ⟨hl, hr, bl, br⟩ := h
    rcases hc : compare nk k with _ | _ | _ <;> simp only [Tree.insert, hc]
    · rw [bst_node_iff]
      refine ⟨hl, ?_, bl, ihr br⟩
      intro y hy
      rcases mem_keys_insert hy with hy' | rfl
      · exact hr y hy'
      · exact compare_lt_iff_lt.mp hc
    · rw [bst_node_iff]
      exact ⟨hl, hr, bl, br⟩
    · rw [bst_node_iff]
      refine ⟨?_, hr, ihl bl, br⟩
      intro x hx
      rcases mem_keys_insert hx with hx' | rfl
      · exact hl x hx'
      · exact compare_gt_iff_gt.mp hc

theorem bst_build (ops : List (K × V)) : (build ops).bst = true := by
  suffices h : ∀ (t : Tree K V), t.bst = true →
      (ops.foldl (fun t p => (t.insert p.1 p.2).1) t).bst = true by
    exact h .nil rfl
  induction ops with
  | nil => intro t ht; simpa using ht
  | cons p rest ih =>
    intro t ht
    exact ih _ (bst_insert p.1 p.2 ht)

theorem mem_inorder_of_get {t : Tree K V} {q : K} {v : V}
    (h : t.get q = some v) : (q, v) ∈ t.inorder := by
  induction t with
  | nil => simp [Tree.get] at h
  | node nk nv l r ihl ihr =>
    rcases hc : compare nk q with _ | _ | _ <;> simp only [Tree.get, hc] at h
    · simp [Tree.inorder, ihr h]
    · obtain rfl : nk = q := compare_eq_iff_eq.mp hc
      obtain rfl : nv = v := by simpa using h
      simp [Tree.inorder]
    · simp [Tree.inorder, ihl h]

theorem mem_keys_of_mem_inorder {t : Tree K V} {q : K} {v : V}
    (h : (q, v) ∈ t.inorder) : q ∈ t.keys := by
  simp only [Tree.keys, List.mem_map]
  exact ⟨(q, v), h, rfl⟩

theorem get_of_mem_inorder {t : Tree K V} {q : K} {v : V}
    (hb : t.bst = true) (h : (q, v) ∈ t.inorder) : t.get q = some v := by
  induction t with
  | nil => simp [Tree.inorder] at h
  | node nk nv l r ihl ihr =>
    rw [bst_node_iff] at hb
    obtain ⟨hl, hr, bl, br⟩ := hb
    simp only [Tree.inorder, List.mem_append, List.mem_cons] at h
    rcases h with h | h | h
    · have hq : q < nk := hl q (mem_keys_of_mem_inorder h)
      have hc : compare nk q = .gt := compare_gt_iff_gt.mpr hq
      simp only [Tree.get, hc]
      exact ihl bl h
    · obtain ⟨rfl, rfl⟩ := Prod.mk.injEq .. ▸ h
      have hc : compare q q = .eq := compare_eq_iff_eq.mpr rfl
      simp [Tree.get, hc]
    · have hq : nk < q := hr q (mem_keys_of_mem_inorder h)
      have hc : compare nk q = .lt := compare_lt_iff_lt.mpr hq
      simp only [Tree.get, hc]
      exact ihr br h

theorem inorder_length (t : Tree K V) : t.inorder.length = t.len := by
  induction t with
  | nil => simp [Tree.inorder, Tree.len]
  | node nk nv l r ihl ihr => simp [Tree.inorder, Tree.len, ihl, ihr]; omega

theorem get_build (ops : List (K × V)) (q : K) :
    (build ops).get q = lastVal ops q := by
  suffices h : ∀ (t : Tree K V),
      (ops.foldl (fun t p => (t.insert p.1 p.2).1) t).get q =
        ops.foldl (fun acc p => if p.1 = q then some p.2 else acc) (t.get q) by
    exact h .nil
  induction ops with
  | nil => intro t; simp
  | cons p rest ih =>
    intro t
    simp only [List.foldl_cons]
    rw [ih]
    congr 1
    by_cases hq : p.1 = q
    · subst hq; simp [get_insert_self]
    · simp [hq, get_insert_ne t p.2 (Ne.symm hq)]

end BoxedLemmas

section IterLemmas

/-- The nodes an iterator state still has to emit: for each stack entry, the
entry itself followed by the in-order nodes of its right subtree. -/
def flatSt : List (Tree K V) → List (Tree K V)
  | [] => []
  | m :: rest => m :: m.right.inorderNodes ++ flatSt rest

theorem flatSt_pushLeft (c : Tree K V) (st : List (Tree K V)) :
    flatSt (pushLeft c st) = c.inorderNodes ++ flatSt st := by
  induction c generalizing st with
  | nil => simp [pushLeft, Tree.inorderNodes]
  | node k v l r ihl ihr =>
    simp [pushLeft, ihl, flatSt, Tree.right, Tree.inorderNodes]

theorem iterNodes_unfold (s : IterSt K V) :
    iterNodes s = match iterNext s with
      | none => []
      | some p => p.1 :: iterNodes p.2 := by
  rw [iterNodes]
  split <;> simp_all

theorem iterNodes_eq_flat : ∀ (n : Nat) (s : IterSt K V), s.meas ≤ n →
    iterNodes s = flatSt (pushLeft s.curr s.stack) := by
  intro n
  induction n with
  | zero =>
    intro s hs
    rcases hp : pushLeft s.curr s.stack with _ | ⟨m, rest⟩
    · have h : iterNext s = none := by unfold iterNext; rw [hp]
      rw [iterNodes_unfold, h, flatSt]
    · have h : iterNext s = some (m, ⟨m.right, rest⟩) := by unfold iterNext; rw [hp]
      exact absurd (iterNext_meas h) (by omega)
  | succ n ih =>
    intro s hs
    rcases hp : pushLeft s.curr s.stack with _ | ⟨m, rest⟩
    · have h : iterNext s = none := by unfold iterNext; rw [hp]
      rw [iterNodes_unfold, h, flatSt]
    · have h : iterNext s = some (m, ⟨m.right, rest⟩) := by unfold iterNext; rw [hp]
      have hmeas : (IterSt.mk m.right rest).meas ≤ n := by
        have := iterNext_meas h
        omega
      calc iterNodes s = m :: iterNodes ⟨m.right, rest⟩ := by
              rw [iterNodes_unfold, h]
        _ = m :: flatSt (pushLeft m.right rest) := by rw [ih _ hmeas]
        _ = flatSt (m :: rest) := by simp [flatSt, flatSt_pushLeft]

theorem iterNodes_init (t : Tree K V) :
    iterNodes ⟨t, []⟩ = t.inorderNodes := by
  rw [iterNodes_eq_flat (IterSt.meas ⟨t, []⟩) ⟨t, []⟩ le_rfl, flatSt_pushLeft]
  simp [flatSt]

theorem filterMap_inorderNodes (t : Tree K V) :
    t.inorderNodes.filterMap nodePair = t.inorder := by
  induction t with
  | nil => simp [Tree.inorderNodes, Tree.inorder]
  | node k v l r ihl ihr =>
    simp [Tree.inorderNodes, Tree.inorder, List.filterMap_append, ihl, ihr, nodePair]

theorem iterPairs_eq_inorder (t : Tree K V) : iterPairs t = t.inorder := by
  rw [iterPairs, iterNodes_init, filterMap_inorderNodes]

end IterLemmas

section RotLemmas

variable [LinearOrder K]

theorem inorder_rotate_r (t : Tree K V) : (rotate_r t).inorder = t.inorder := by
  rcases t with _ | ⟨k, v, l, r⟩
  · rfl
  · rcases l with _ | ⟨lk, lv, ll, lr⟩
    · rfl
    · simp [rotate_r, Tree.inorder]

theorem inorder_rotate_l (t : Tree K V) : (rotate_l t).inorder = t.inorder := by
  rcases t with _ | ⟨k, v, l, r⟩
  · rfl
  · rcases r with _ | ⟨rk, rv, rl, rr⟩
    · rfl
    · simp [rotate_l, Tree.inorder]

theorem len_rotate_r (t : Tree K V) : (rotate_r t).len = t.len := by
  rw [← inorder_length, ← inorder_length, inorder_rotate_r]

theorem len_rotate_l (t : Tree K V) : (rotate_l t).len = t.len := by
  rw [← inorder_length, ← inorder_length, inorder_rotate_l]

theorem bst_rotate_r [LinearOrder K] {t : Tree K V} (h : t.bst = true) :
    (rotate_r t).bst = true := by
  rw [bst_iff_pairwise] at h ⊢
  rw [Tree.keys, inorder_rotate_r]
  exact h

theorem bst_rotate_l [LinearOrder K] {t : Tree K V} (h : t.bst = true) :
    (rotate_l t).bst = true := by
  rw [bst_iff_pairwise] at h ⊢
  rw [Tree.keys, inorder_rotate_l]
  exact h

end RotLemmas

end Boxed

example : (Boxed.Tree.nil.insert 3 30).1.insert 1 10 =
    (Boxed.Tree.node 3 30 (.node 1 10 .nil .nil) .nil, none) := by decide

example : (Boxed.build [(3, 30), (1, 10), (2, 20)]).inorder =
    [(1, 10), (2, 20), (3, 30)] := by decide

example : Boxed.rotate_r (Boxed.build [(3, 30), (1, 10), (2, 20)]) =
    Boxed.Tree.node 1 10 .nil (.node 3 30 (.node 2 20 .nil .nil) .nil) := by decide

namespace TR

/-- The node type of `src/node.rs`: `Node` wraps `Option<Box<InnerNode>>`, so
`nil` is a `Node` with `inner: None` and `node` is a present `InnerNode`
(whose children are again `Node`s). -/
inductive Node (K V : Type) where
  | nil : Node K V
  | node (key : K) (value : V) (left right : Node K V) : Node K V
deriving DecidableEq

variable {K V : Type}

/-- `Node::insert` of `src/node.rs`: an absent inner node is replaced by a
fresh leaf; otherwise `inner.key.cmp(&key)` sends `Greater` left, `Equal`
replaces the value returning the old one, `Less` right. -/
def Node.insert [LinearOrder K] : Node K V → K → V → Node K V × Option V
  | .nil, k, v => (.node k v .nil .nil, none)
  | .node key value l r, k, v =>
    match compare key k with
    | .gt =>
      let p := l.insert k v
      (.node key value p.1 r, p.2)
    | .eq => (.node key v l r, some value)
    | .lt =>
      let p := r.insert k v
      (.node key value l p.1, p.2)

/-- `Node::get` of `src/node.rs`. -/
def Node.get [LinearOrder K] : Node K V → K → Option V
  | .nil, _ => none
  | .node key value l r, k =>
    match compare key k with
    | .gt => l.get k
    | .eq => some value
    | .lt => r.get k

/-- `Node::len` of `src/node.rs`. -/
def Node.len : Node K V → Nat
  | .nil => 0
  | .node _ _ l r => l.len + 1 + r.len

/-- `Tree` of `src/tree.rs`: a cached `size` counter and an
`Option<Node<K, V>>` root (an `Option` around the already-optional node). -/
structure Tree (K V : Type) where
  size : Nat
  root : Option (Node K V)
deriving DecidableEq

/-- `Tree::new` / `Tree::default` of `src/tree.rs`: size `0`, root `None`. -/
def Tree.new : Tree K V := ⟨0, none⟩

/-- `Tree::insert` of `src/tree.rs`:
`self.root.as_mut().and_then(|node| node.insert(key, value))`.  When the outer
root `Option` is `None`, the `and_then` is a no-op producing `None`, and the
`ret @ None` arm then increments `size` — no node is ever linked into the
tree.  When the root is present, the inner `Node::insert` runs and `size` is
incremented exactly when it returns `None`. -/
def Tree.insert [LinearOrder K] (t : Tree K V) (k : K) (v : V) :
    Tree K V × Option V :=
  match t.root with
  | none => ({ t with size := t.size + 1 }, none)
  | some nd =>
    let p := nd.insert k v
    match p.2 with
    | none => (⟨t.size + 1, some p.1⟩, none)
    | some old => (⟨t.size, some p.1⟩, some old)

/-- `Tree::get` of `src/tree.rs`: `self.root.as_ref().and_then(|node| node.get(key))`. -/
def Tree.get [LinearOrder K] (t : Tree K V) (k : K) : Option V :=
  match t.root with
  | none => none
  | some nd => nd.get k

end TR

example : (TR.Tree.new.insert 5 50 : TR.Tree Nat Nat × Option Nat) =
    (⟨1, none⟩, none) := by decide

example : (TR.Tree.new.insert 5 50).1.get 5 = (none : Option Nat) := by decide

namespace Arena

/-- `LNode` of `src/ltree.rs`: key, value and two optional child slot
indices. -/
structure LNode (K V : Type) where
  k : K
  v : V
  l : Option Nat
  r : Option Nat
deriving DecidableEq

/-- `LTree` of `src/ltree.rs`: an optional root slot index, the slot vector
and the free list.  Rust `Vec`s are modelled by `List`s with matching indices;
`Vec::push` appends at the end and `Vec::pop` removes the last element. -/
structure LTree (K V : Type) where
  root : Option Nat
  node_slots : List (Option (LNode K V))
  free_slots : List Nat
deriving DecidableEq

variable {K V : Type}

/-- `LTree::new` / `LTree::default`: empty root, no slots, empty free list. -/
def LTree.new : LTree K V := ⟨none, [], []⟩

/-- `LTree::new_slot`: `self.free_slots.pop()` takes the most recently freed
slot if the free list is non-empty; otherwise a `None` slot is pushed and its
index (the old length) returned. -/
def new_slot (t : LTree K V) : Nat × LTree K V :=
  match t.free_slots.getLast? with
  | some s => (s, { t with free_slots := t.free_slots.dropLast })
  | none => (t.node_slots.length, { t with node_slots := t.node_slots ++ [none] })

/-- `LTree::insert_at_slot`, made total by structural fuel: every recursive
self-call in the Rust source consumes one unit, and a `none` result models
either running out of fuel or hitting one of the `invalid slot` failure
branches (the slot-vector index panic or the `expect("invalid slot")`).
The comparison `node.k.cmp(&k)` sends `Less` to `node.l` (attaching new nodes
as the left child) and `Greater` to `node.r`, exactly as the source does. -/
def insert_at_slot [LinearOrder K] :
    Nat → LTree K V → Nat → K → V → Option (LTree K V × Option V)
  | 0, _, _, _, _ => none
  | fuel + 1, t, idx, k, v =>
    match t.node_slots[idx]? with
    | none => none
    | some none =>
      some ({ t with node_slots := t.node_slots.set idx (some ⟨k, v, none, none⟩) },
        none)
    | some (some node) =>
      match compare node.k k with
      | .eq =>
        some ({ t with
          node_slots := t.node_slots.set idx (some { node with v := v }) },
          some node.v)
      | .lt =>
        match node.l with
        | some child => insert_at_slot fuel t child k v
        | none =>
          let p := new_slot t
          match p.2.node_slots[idx]? with
          | some (some nd) =>
            let t2 := { p.2 with
              node_slots := p.2.node_slots.set idx (some { nd with l := some p.1 }) }
            some ({ t2 with
              node_slots := t2.node_slots.set p.1 (some ⟨k, v, none, none⟩) }, none)
          | _ => none
      | .gt =>
        match node.r with
        | some child => insert_at_slot fuel t child k v
        | none =>
          let p := new_slot t
          match p.2.node_slots[idx]? with
          | some (some nd) =>
            let t2 := { p.2 with
              node_slots := p.2.node_slots.set idx (some { nd with r := some p.1 }) }
            some ({ t2 with
              node_slots := t2.node_slots.set p.1 (some ⟨k, v, none, none⟩) }, none)
          | _ => none

/-- `LTree::insert`: allocate (and link) a root slot when the tree is empty,
then run `insert_at_slot` at the root.  The fuel `node_slots.length + 1`
bounds the recursion depth of any well-formed tree (proved below); the Rust
recursion carries no fuel. -/
def LTree.insert [LinearOrder K] (t : LTree K V) (k : K) (v : V) :
    Option (LTree K V × Option V) :=
  match t.root with
  | none =>
    let p := new_slot t
    let t1 := { p.2 with root := some p.1 }
    insert_at_slot (t1.node_slots.length + 1) t1 p.1 k v
  | some root_slot => insert_at_slot (t.node_slots.length + 1) t root_slot k v

/-- `LTree::get_slot`, with the same fuel discipline as `insert_at_slot`:
the outer `Option` is `none` when the `expect("invalid slot")` branch (or
fuel exhaustion) is hit, `some none` when the key is absent.  `Less` descends
into `node.l` and `Greater` into `node.r`, as in the source. -/
def get_slot [LinearOrder K] : Nat → LTree K V → Nat → K → Option (Option V)
  | 0, _, _, _ => none
  | fuel + 1, t, slot, q =>
    match t.node_slots[slot]? with
    | some (some node) =>
      match compare node.k q with
      | .eq => some (some node.v)
      | .lt =>
        match node.l with
        | none => some none
        | some c => get_slot fuel t c q
      | .gt =>
        match node.r with
        | none => some none
        | some c => get_slot fuel t c q
    | _ => none

/-- `LTree::get`: `self.root.and_then(|slot| self.get_slot(slot, k))`; an
absent root yields the absent-key answer. -/
def LTree.get [LinearOrder K] (t : LTree K V) (q : K) : Option (Option V) :=
  match t.root with
  | none => some none
  | some s => get_slot (t.node_slots.length + 1) t s q

/-- Functional model of the subtree stored at a slot: each node carries the
slot index it lives in, plus key, value and the two child subtrees. -/
inductive STree (K V : Type) where
  | leaf : STree K V
  | node (i : Nat) (k : K) (v : V) (l r : STree K V) : STree K V
deriving DecidableEq

/-- Slot indices of a model tree, in pre-order. -/
def STree.idxs : STree K V → List Nat
  | .leaf => []
  | .node i _ _ l r => i :: (l.idxs ++ r.idxs)

/-- Number of nodes of a model tree. -/
def STree.size : STree K V → Nat
  | .leaf => 0
  | .node _ _ _ l r => l.size + 1 + r.size

/-- In-order keys of a model tree. -/
def STree.skeys : STree K V → List K
  | .leaf => []
  | .node _ k _ l r => l.skeys ++ k :: r.skeys

/-- Functional model of `insert_at_slot` on an occupied subtree (`ni` is the
slot index the new node would be stored in): `Less` descends left, `Equal`
replaces the value, `Greater` descends right — the same mirrored orientation
as the arena code. -/
def sInsert [LinearOrder K] (ni : Nat) : STree K V → K → V → STree K V × Option V
  | .leaf, k, v => (.node ni k v .leaf .leaf, none)
  | .node i nk nv l r, k, v =>
    match compare nk k with
    | .eq => (.node i nk v l r, some nv)
    | .lt =>
      let p := sInsert ni l k v
      (.node i nk nv p.1 r, p.2)
    | .gt =>
      let p := sInsert ni r k v
      (.node i nk nv l p.1, p.2)

/-- Functional model of `get_slot`. -/
def sGet [LinearOrder K] : STree K V → K → Option V
  | .leaf, _ => none
  | .node _ nk nv l r, q =>
    match compare nk q with
    | .eq => some nv
    | .lt => sGet l q
    | .gt => sGet r q

/-- The ordering invariant the arena code actually maintains: every key in a
node's left subtree is strictly greater than the node's key, every key in its
right subtree strictly smaller (the mirror image of the usual BST orientation). -/
def STree.mbst [LinearOrder K] : STree K V → Bool
  | .leaf => true
  | .node _ k _ l r =>
    (l.skeys.all fun x => decide (k < x)) &&
    (r.skeys.all fun x => decide (x < k)) && l.mbst && r.mbst

/-- The node-record invariant exactly as the spec words it for `left`/`right`:
every key reachable through the left child is strictly less than the node's
key, every key reachable through the right child strictly greater. -/
def STree.specBst [LinearOrder K] : STree K V → Bool
  | .leaf => true
  | .node _ k _ l r =>
    (l.skeys.all fun x => decide (x < k)) &&
    (r.skeys.all fun x => decide (k < x)) && l.specBst && r.specBst

/-- A slot subtree of the arena represents a model tree: a present root index
must hold an occupied slot whose fields decode recursively, the node's own
index never reappears below it, and the two child index sets are disjoint
(so every reachable slot index occurs exactly once). -/
inductive Rep (slots : List (Option (LNode K V))) : Option Nat → STree K V → Prop where
  | leaf : Rep slots none .leaf
  | node {i : Nat} {k : K} {v : V} {lo ro : Option Nat} {tl tr : STree K V} :
      slots[i]? = some (some ⟨k, v, lo, ro⟩) →
      Rep slots lo tl → Rep slots ro tr →
      i ∉ tl.idxs → i ∉ tr.idxs →
      (∀ j ∈ tl.idxs, j ∉ tr.idxs) →
      Rep slots (some i) (.node i k v tl tr)

/-- The free-list invariant of the arena (spec §3): free indices are distinct
and each refers to a vacant in-range slot. -/
def FreeInv (t : LTree K V) : Prop :=
  t.free_slots.Nodup ∧ ∀ s ∈ t.free_slots, t.node_slots[s]? = some none

/-- Build an `LTree` by a sequence of public `insert` calls from a given
tree, failing if any insert fails. -/
def buildFrom [LinearOrder K] : LTree K V → List (K × V) → Option (LTree K V)
  | t, [] => some t
  | t, p :: rest =>
    match LTree.insert t p.1 p.2 with
    | none => none
    | some res => buildFrom res.1 rest

/-- Build an `LTree` by a sequence of public `insert` calls from the empty
tree. -/
def buildL [LinearOrder K] (ops : List (K × V)) : Option (LTree K V) :=
  buildFrom LTree.new ops

section ArenaLemmas

theorem lt_of_getElem?_some {α : Type} {l : List α} {j : Nat} {a : α}
    (h : l[j]? = some a) : j < l.length := by
  by_contra hge
  rw [List.getElem?_eq_none (by omega)] at h
  exact absurd h (by simp)

theorem set_getElem?_self {α : Type} (l : List α) {n : Nat} (a : α)
    (h : n < l.length) : (l.set n a)[n]? = some a := by
  simp [List.getElem?_set_self', List.getElem?_eq_getElem h]

theorem getElem?_append_sing {α : Type} (l : List α) (x : α) {j : Nat}
    (h : j ≠ l.length) : (l ++ [x])[j]? = l[j]? := by
  rcases Nat.lt_or_ge j l.length with hlt | hge
  · exact List.getElem?_append_left hlt
  · have h1 : l[j]? = none := List.getElem?_eq_none hge
    have h2 : (l ++ [x])[j]? = none := List.getElem?_eq_none (by simp; omega)
    rw [h1, h2]

theorem mem_of_getLast_eq {l : List Nat} {a : Nat} (h : l.getLast? = some a) :
    a ∈ l := by
  have hm : a ∈ l.getLast? := by simp [h, Option.mem_def]
  obtain ⟨hne, rfl⟩ := List.mem_getLast?_eq_getLast hm
  exact List.getLast_mem hne

theorem ne_getLast_of_mem_dropLast {l : List Nat} (hnd : l.Nodup) {a b : Nat}
    (ha : a ∈ l.dropLast) (hb : l.getLast? = some b) : a ≠ b := by
  have heq : l.dropLast ++ [b] = l := List.dropLast_append_getLast? b hb
  rw [← heq] at hnd
  exact fun hab => (List.nodup_append.mp hnd).2.2 ha (by simp [hab])

theorem rep_occupied {slots : List (Option (LNode K V))} {o : Option Nat}
    {st : STree K V} (h : Rep slots o st) :
    ∀ j ∈ st.idxs, ∃ n : LNode K V, slots[j]? = some (some n) := by
  induction h with
  | leaf => intro j hj; simp [STree.idxs] at hj
  | node hget hl hr hn1 hn2 hdis ihl ihr =>
    intro j hj
    simp only [STree.idxs, List.mem_cons, List.mem_append] at hj
    rcases hj with rfl | hj | hj
    · exact ⟨_, hget⟩
    · exact ihl j hj
    · exact ihr j hj

theorem rep_idx_lt {slots : List (Option (LNode K V))} {o : Option Nat}
    {st : STree K V} (h : Rep slots o st) :
    ∀ j ∈ st.idxs, j < slots.length := by
  intro j hj
  obtain ⟨n, hn⟩ := rep_occupied h j hj
  exact lt_of_getElem?_some hn

theorem rep_nodup {slots : List (Option (LNode K V))} {o : Option Nat}
    {st : STree K V} (h : Rep slots o st) : st.idxs.Nodup := by
  induction h with
  | leaf => simp [STree.idxs]
  | node hget hl hr hn1 hn2 hdis ihl ihr =>
    simp only [STree.idxs, List.nodup_cons, List.nodup_append, List.mem_append]
    refine ⟨?_, ihl, ihr, fun a ha hb => hdis a ha hb⟩
    rintro (hmem | hmem)
    · exact hn1 hmem
    · exact hn2 hmem

theorem idxs_length (st : STree K V) : st.idxs.length = st.size := by
  induction st with
  | leaf => simp [STree.idxs, STree.size]
  | node i k v l r ihl ihr =>
    simp [STree.idxs, STree.size, ihl, ihr]
    omega

theorem rep_size_le {slots : List (Option (LNode K V))} {o : Option Nat}
    {st : STree K V} (h : Rep slots o st) : st.size ≤ slots.length := by
  have hsub : st.idxs ⊆ List.range slots.length := by
    intro j hj
    exact List.mem_range.mpr (rep_idx_lt h j hj)
  have hle := (List.subperm_of_subset (rep_nodup h) hsub).length_le
  rw [idxs_length, List.length_range] at hle
  exact hle

theorem rep_frame {slots slots2 : List (Option (LNode K V))} {o : Option Nat}
    {st : STree K V} (h : Rep slots o st)
    (hag : ∀ j ∈ st.idxs, slots2[j]? = slots[j]?) : Rep slots2 o st := by
  induction h with
  | leaf => exact Rep.leaf
  | node hget hl hr hn1 hn2 hdis ihl ihr =>
    refine Rep.node ?_ (ihl ?_) (ihr ?_) hn1 hn2 hdis
    · rw [hag _ (by simp [STree.idxs])]
      exact hget
    · intro j hj
      exact hag j (by simp [STree.idxs, hj])
    · intro j hj
      exact hag j (by simp [STree.idxs, hj])

theorem new_slot_root (t : LTree K V) : (new_slot t).2.root = t.root := by
  rcases hf : t.free_slots.getLast? with _ | s <;> simp [new_slot, hf]

theorem new_slot_vacant (t : LTree K V) (hfree : FreeInv t) :
    (new_slot t).2.node_slots[(new_slot t).1]? = some none := by
  rcases hf : t.free_slots.getLast? with _ | s
  · simp [new_slot, hf]
  · have hvac := hfree.2 s (mem_of_getLast_eq hf)
    simp [new_slot, hf, hvac]

theorem new_slot_preserves (t : LTree K V) {j : Nat} {n : LNode K V}
    (h : t.node_slots[j]? = some (some n)) :
    (new_slot t).2.node_slots[j]? = some (some n) := by
  rcases hf : t.free_slots.getLast? with _ | s
  · have hlt : j < t.node_slots.length := lt_of_getElem?_some h
    simp only [new_slot, hf]
    rw [List.getElem?_append_left hlt]
    exact h
  · simpa [new_slot, hf] using h

theorem new_slot_get_ne (t : LTree K V) {j : Nat} (h : j ≠ (new_slot t).1) :
    (new_slot t).2.node_slots[j]? = t.node_slots[j]? := by
  rcases hf : t.free_slots.getLast? with _ | s
  · have hne : j ≠ t.node_slots.length := by simpa [new_slot, hf] using h
    simp only [new_slot, hf]
    exact getElem?_append_sing _ _ hne
  · simp [new_slot, hf]

theorem new_slot_fresh (t : LTree K V) (hfree : FreeInv t) {j : Nat}
    {n : LNode K V} (h : t.node_slots[j]? = some (some n)) :
    j ≠ (new_slot t).1 := by
  intro heq
  rcases hf : t.free_slots.getLast? with _ | s
  · have hlt : j < t.node_slots.length := lt_of_getElem?_some h
    have hni : (new_slot t).1 = t.node_slots.length := by simp [new_slot, hf]
    omega
  · have hvac := hfree.2 s (mem_of_getLast_eq hf)
    have hni : (new_slot t).1 = s := by simp [new_slot, hf]
    rw [hni] at heq
    rw [heq] at h
    rw [h] at hvac
    exact absurd hvac (by simp)

theorem new_slot_freeInv (t : LTree K V) (hfree : FreeInv t) :
    FreeInv (new_slot t).2 := by
  rcases hf : t.free_slots.getLast? with _ | s
  · refine ⟨by simpa [new_slot, hf] using hfree.1, ?_⟩
    intro x hx
    simp only [new_slot, hf] at hx ⊢
    have hvac := hfree.2 x hx
    have hlt : x < t.node_slots.length := lt_of_getElem?_some hvac
    rw [List.getElem?_append_left hlt]
    exact hvac
  · refine ⟨?_, ?_⟩
    · simp only [new_slot, hf]
      exact hfree.1.sublist (List.dropLast_sublist _)
    · intro x hx
      simp only [new_slot, hf] at hx ⊢
      exact hfree.2 x (List.dropLast_subset _ hx)

theorem new_slot_idx_not_mem_free (t : LTree K V) (hfree : FreeInv t) :
    (new_slot t).1 ∉ (new_slot t).2.free_slots := by
  rcases hf : t.free_slots.getLast? with _ | s
  · simp only [new_slot, hf]
    intro hmem
    have hvac := hfree.2 _ hmem
    have hlt := lt_of_getElem?_some hvac
    omega
  · simp only [new_slot, hf]
    intro hmem
    exact absurd rfl (ne_getLast_of_mem_dropLast hfree.1 hmem hf)

theorem freeInv_sets (t : LTree K V) (hfree : FreeInv t) (r : Option Nat)
    (slots2 : List (Option (LNode K V)))
    (hag : ∀ s ∈ (new_slot t).2.free_slots,
      slots2[s]? = (new_slot t).2.node_slots[s]?) :
    FreeInv ⟨r, slots2, (new_slot t).2.free_slots⟩ := by
  have hmid := new_slot_freeInv t hfree
  exact ⟨hmid.1, fun s hs => (hag s hs).trans (hmid.2 s hs)⟩

end ArenaLemmas

section ArenaMain

variable [LinearOrder K]

theorem sInsert_idxs (ni : Nat) (st : STree K V) (k : K) (v : V) :
    ∀ j ∈ (sInsert ni st k v).1.idxs, j ∈ st.idxs ∨ j = ni := by
  induction st with
  | leaf =>
    intro j hj
    simp [sInsert, STree.idxs] at hj
    exact Or.inr hj
  | node i nk nv l r ihl ihr =>
    intro j hj
    rcases hc : compare nk k with _ | _ | _ <;>
      simp only [sInsert, hc] at hj
    · simp only [STree.idxs, List.mem_cons, List.mem_append] at hj ⊢
      rcases hj with rfl | hj | hj
      · exact Or.inl (Or.inl rfl)
      · rcases ihl j hj with h | h
        · exact Or.inl (Or.inr (Or.inl h))
        · exact Or.inr h
      · exact Or.inl (Or.inr (Or.inr hj))
    · exact Or.inl hj
    · simp only [STree.idxs, List.mem_cons, List.mem_append] at hj ⊢
      rcases hj with rfl | hj | hj
      · exact Or.inl (Or.inl rfl)
      · exact Or.inl (Or.inr (Or.inl hj))
      · rcases ihr j hj with h | h
        · exact Or.inl (Or.inr (Or.inr h))
        · exact Or.inr h

/-- Main simulation lemma for `insert_at_slot`: on a well-formed occupied
subtree it never hits an invalid-slot branch, returns what the functional
model returns, preserves well-formedness and the free-list invariant, leaves
slots outside the resulting subtree untouched, and performs exactly one
`new_slot` allocation when the key is new and none when it updates. -/
theorem insert_at_slot_correct (t : LTree K V) (k : K) (v : V)
    (hfree : FreeInv t) :
    ∀ (st : STree K V) (fuel idx : Nat),
      Rep t.node_slots (some idx) st →
      st.size + 1 ≤ fuel →
      ∃ t2 : LTree K V,
        insert_at_slot fuel t idx k v =
          some (t2, (sInsert (new_slot t).1 st k v).2) ∧
        t2.root = t.root ∧
        Rep t2.node_slots (some idx) (sInsert (new_slot t).1 st k v).1 ∧
        FreeInv t2 ∧
        (∀ j, j ∉ (sInsert (new_slot t).1 st k v).1.idxs →
          t2.node_slots[j]? = t.node_slots[j]?) ∧
        ((sInsert (new_slot t).1 st k v).2 = none →
          t2.free_slots = (new_slot t).2.free_slots ∧
          t2.node_slots.length = (new_slot t).2.node_slots.length ∧
          t2.node_slots[(new_slot t).1]? = some (some ⟨k, v, none, none⟩)) ∧
        (∀ w, (sInsert (new_slot t).1 st k v).2 = some w →
          t2.free_slots = t.free_slots ∧
          ∃ j nd, t.node_slots[j]? = some (some nd) ∧
            t2.node_slots = t.node_slots.set j (some { nd with v := v })) := by
  intro st
  induction st with
  | leaf =>
    intro fuel idx hrep hsize
    cases hrep
  | node i nk nv tl tr ihl ihr =>
    intro fuel idx hrep hsize
    cases hrep with
    | @node _ _ _ lo ro _ _ hget hl hr hn1 hn2 hdis =>
      cases fuel with
      | zero => omega
      | succ f =>
      have hsz : (STree.node i nk nv tl tr).size = tl.size + 1 + tr.size := rfl
      rcases hc : compare nk k with _ | _ | _
      · -- compare nk k = .lt : Less ⇒ descend/attach via node.l
        rcases lo with _ | child
        · -- node.l is None: attach a fresh left child
          cases hl
          have hii : i ≠ (new_slot t).1 := new_slot_fresh t hfree hget
          have hmidget : (new_slot t).2.node_slots[i]? =
              some (some ⟨nk, nv, none, ro⟩) := new_slot_preserves t hget
          have hvac := new_slot_vacant t hfree
          have hni_lt : (new_slot t).1 < (new_slot t).2.node_slots.length :=
            lt_of_getElem?_some hvac
          have hi_lt : i < (new_slot t).2.node_slots.length :=
            lt_of_getElem?_some hmidget
          have htr_ne : ∀ j ∈ tr.idxs, j ≠ (new_slot t).1 := by
            intro j hj
            obtain ⟨n, hn⟩ := rep_occupied hr j hj
            exact new_slot_fresh t hfree hn
          refine ⟨⟨(new_slot t).2.root,
            ((new_slot t).2.node_slots.set i
              (some ⟨nk, nv, some (new_slot t).1, ro⟩)).set
              (new_slot t).1 (some ⟨k, v, none, none⟩),
            (new_slot t).2.free_slots⟩, ?_, ?_, ?_, ?_, ?_, ?_, ?_⟩
          · simp only [insert_at_slot, hget, hc, hmidget, sInsert]
          · simpa using new_slot_root t
          · simp only [sInsert, hc]
            refine Rep.node ?_
              (Rep.node ?_ Rep.leaf Rep.leaf (by simp [STree.idxs])
                (by simp [STree.idxs]) (by simp [STree.idxs]))
              (rep_frame hr ?_) ?_ hn2 ?_
            · rw [List.getElem?_set_ne (Ne.symm hii),
                set_getElem?_self _ _ hi_lt]
            · rw [set_getElem?_self _ _ (by simpa using hni_lt)]
            · intro j hj
              rw [List.getElem?_set_ne (Ne.symm (htr_ne j hj)),
                List.getElem?_set_ne (fun hij => hn2 (by rw [hij]; exact hj)),
                new_slot_get_ne t (htr_ne j hj)]
            · simp [STree.idxs, hii]
            · intro j hj
              simp only [STree.idxs, List.mem_cons, List.mem_append,
                List.not_mem_nil, or_false] at hj
              subst hj
              intro hmem
              exact htr_ne _ hmem rfl
          · refine freeInv_sets t hfree _ _ ?_
            intro s hs
            have hsni : s ≠ (new_slot t).1 :=
              fun hcontra => new_slot_idx_not_mem_free t hfree (hcontra ▸ hs)
            have hsvac := (new_slot_freeInv t hfree).2 s hs
            have hsi : s ≠ i := by
              intro hcontra
              rw [hcontra, hmidget] at hsvac
              exact absurd hsvac (by simp)
            rw [List.getElem?_set_ne (Ne.symm hsni),
              List.getElem?_set_ne (Ne.symm hsi)]
          · intro j hj
            simp only [sInsert, hc, STree.idxs, List.mem_cons, List.mem_append,
              List.not_mem_nil, or_false, not_or] at hj
            obtain ⟨hji, hjni, hjtr⟩ := hj
            rw [List.getElem?_set_ne (Ne.symm hjni),
              List.getElem?_set_ne (Ne.symm hji),
              new_slot_get_ne t hjni]
          · intro _
            refine ⟨rfl, by simp, ?_⟩
            rw [set_getElem?_self _ _ (by simpa using hni_lt)]
          · intro w hw
            simp [sInsert, hc] at hw
        · -- node.l is Some(child): recurse into the left subtree
          have hmodel :
              sInsert (new_slot t).1 (STree.node i nk nv tl tr) k v =
                (.node i nk nv (sInsert (new_slot t).1 tl k v).1 tr,
                  (sInsert (new_slot t).1 tl k v).2) := by
            simp only [sInsert, hc]
          obtain ⟨t2, heq, hroot, hrepl, hfree2, hframe, hnone, hsome⟩ :=
            ihl f child hl (by omega)
          have hii : i ≠ (new_slot t).1 := new_slot_fresh t hfree hget
          have hinotin : i ∉ (sInsert (new_slot t).1 tl k v).1.idxs := by
            intro hmem
            rcases sInsert_idxs _ tl k v i hmem with h | h
            · exact hn1 h
            · exact hii h
          have htr_ne : ∀ j ∈ tr.idxs, j ≠ (new_slot t).1 := by
            intro j hj
            obtain ⟨n, hn⟩ := rep_occupied hr j hj
            exact new_slot_fresh t hfree hn
          have htr_notin : ∀ j ∈ tr.idxs,
              j ∉ (sInsert (new_slot t).1 tl k v).1.idxs := by
            intro j hj hmem
            rcases sInsert_idxs _ tl k v j hmem with h | h
            · exact hdis j h hj
            · exact htr_ne j hj h
          refine ⟨t2, ?_, hroot, ?_, hfree2, ?_, ?_, ?_⟩
          · rw [hmodel]
            simp only [insert_at_slot, hget, hc]
            exact heq
          · rw [hmodel]
            refine Rep.node ?_ hrepl (rep_frame hr ?_) hinotin hn2 ?_
            · rw [hframe i hinotin]
              exact hget
            · intro j hj
              exact hframe j (htr_notin j hj)
            · intro j hj hmem
              rcases sInsert_idxs _ tl k v j hj with h | h
              · exact hdis j h hmem
              · exact htr_ne j hmem h
          · intro j hj
            rw [hmodel] at hj
            simp only [STree.idxs, List.mem_cons, List.mem_append, not_or] at hj
            exact hframe j hj.2.1
          · rw [hmodel]
            exact hnone
          · rw [hmodel]
            exact hsome
      · -- compare nk k = .eq : update the value in place
        have hmodel :
            sInsert (new_slot t).1 (STree.node i nk nv tl tr) k v =
              (.node i nk v tl tr, some nv) := by
          simp only [sInsert, hc]
        have hi_lt : i < t.node_slots.length := lt_of_getElem?_some hget
        refine ⟨{ t with
          node_slots := t.node_slots.set i (some ⟨nk, v, lo, ro⟩) },
          ?_, rfl, ?_, ?_, ?_, ?_, ?_⟩
        · rw [hmodel]
          simp only [insert_at_slot, hget, hc]
        · rw [hmodel]
          refine Rep.node (set_getElem?_self _ _ hi_lt) ?_ ?_ hn1 hn2 hdis
          · refine rep_frame hl ?_
            intro j hj
            exact List.getElem?_set_ne (fun hij => hn1 (by rw [hij]; exact hj))
          · refine rep_frame hr ?_
            intro j hj
            exact List.getElem?_set_ne (fun hij => hn2 (by rw [hij]; exact hj))
        · refine ⟨hfree.1, ?_⟩
          intro s hs
          have hvac := hfree.2 s hs
          have hne : i ≠ s := by
            intro hcontra
            rw [← hcontra, hget] at hvac
            exact absurd hvac (by simp)
          rw [List.getElem?_set_ne hne]
          exact hvac
        · intro j hj
          rw [hmodel] at hj
          simp only [STree.idxs, List.mem_cons, List.mem_append, not_or] at hj
          exact List.getElem?_set_ne (fun hij => hj.1 hij.symm)
        · rw [hmodel]
          intro h
          exact absurd h (by simp)
        · rw [hmodel]
          intro w hw
          exact ⟨rfl, i, ⟨nk, nv, lo, ro⟩, hget, rfl⟩
      · -- compare nk k = .gt : Greater ⇒ descend/attach via node.r
        rcases ro with _ | child
        · -- node.r is None: attach a fresh right child
          cases hr
          have hii : i ≠ (new_slot t).1 := new_slot_fresh t hfree hget
          have hmidget : (new_slot t).2.node_slots[i]? =
              some (some ⟨nk, nv, lo, none⟩) := new_slot_preserves t hget
          have hvac := new_slot_vacant t hfree
          have hni_lt : (new_slot t).1 < (new_slot t).2.node_slots.length :=
            lt_of_getElem?_some hvac
          have hi_lt : i < (new_slot t).2.node_slots.length :=
            lt_of_getElem?_some hmidget
          have htl_ne : ∀ j ∈ tl.idxs, j ≠ (new_slot t).1 := by
            intro j hj
            obtain ⟨n, hn⟩ := rep_occupied hl j hj
            exact new_slot_fresh t hfree hn
          refine ⟨⟨(new_slot t).2.root,
            ((new_slot t).2.node_slots.set i
              (some ⟨nk, nv, lo, some (new_slot t).1⟩)).set
              (new_slot t).1 (some ⟨k, v, none, none⟩),
            (new_slot t).2.free_slots⟩, ?_, ?_, ?_, ?_, ?_, ?_, ?_⟩
          · simp only [insert_at_slot, hget, hc, hmidget, sInsert]
          · simpa using new_slot_root t
          · simp only [sInsert, hc]
            refine Rep.node ?_ (rep_frame hl ?_)
              (Rep.node ?_ Rep.leaf Rep.leaf (by simp [STree.idxs])
                (by simp [STree.idxs]) (by simp [STree.idxs]))
              hn1 ?_ ?_
            · rw [List.getElem?_set_ne (Ne.symm hii),
                set_getElem?_self _ _ hi_lt]
            · intro j hj
              rw [List.getElem?_set_ne (Ne.symm (htl_ne j hj)),
                List.getElem?_set_ne (fun hij => hn1 (by rw [hij]; exact hj)),
                new_slot_get_ne t (htl_ne j hj)]
            · rw [set_getElem?_self _ _ (by simpa using hni_lt)]
            · simp [STree.idxs, hii]
            · intro j hj
              simp only [STree.idxs, List.mem_cons, List.mem_append,
                List.not_mem_nil, or_false]
              exact htl_ne j hj
          · refine freeInv_sets t hfree _ _ ?_
            intro s hs
            have hsni : s ≠ (new_slot t).1 :=
              fun hcontra => new_slot_idx_not_mem_free t hfree (hcontra ▸ hs)
            have hsvac := (new_slot_freeInv t hfree).2 s hs
            have hsi : s ≠ i := by
              intro hcontra
              rw [hcontra, hmidget] at hsvac
              exact absurd hsvac (by simp)
            rw [List.getElem?_set_ne (Ne.symm hsni),
              List.getElem?_set_ne (Ne.symm hsi)]
          · intro j hj
            simp only [sInsert, hc, STree.idxs, List.mem_cons, List.mem_append,
              List.not_mem_nil, or_false, not_or] at hj
            obtain ⟨hji, hjtl, hjni⟩ := hj
            rw [List.getElem?_set_ne (Ne.symm hjni),
              List.getElem?_set_ne (Ne.symm hji),
              new_slot_get_ne t hjni]
          · intro _
            refine ⟨rfl, by simp, ?_⟩
            rw [set_getElem?_self _ _ (by simpa using hni_lt)]
          · intro w hw
            simp [sInsert, hc] at hw
        · -- node.r is Some(child): recurse into the right subtree
          have hmodel :
              sInsert (new_slot t).1 (STree.node i nk nv tl tr) k v =
                (.node i nk nv tl (sInsert (new_slot t).1 tr k v).1,
                  (sInsert (new_slot t).1 tr k v).2) := by
            simp only [sInsert, hc]
          obtain ⟨t2, heq, hroot, hrepr, hfree2, hframe, hnone, hsome⟩ :=
            ihr f child hr (by omega)
          have hii : i ≠ (new_slot t).1 := new_slot_fresh t hfree hget
          have hinotin : i ∉ (sInsert (new_slot t).1 tr k v).1.idxs := by
            intro hmem
            rcases sInsert_idxs _ tr k v i hmem with h | h
            · exact hn2 h
            · exact hii h
          have htl_ne : ∀ j ∈ tl.idxs, j ≠ (new_slot t).1 := by
            intro j hj
            obtain ⟨n, hn⟩ := rep_occupied hl j hj
            exact new_slot_fresh t hfree hn
          refine ⟨t2, ?_, hroot, ?_, hfree2, ?_, ?_, ?_⟩
          · rw [hmodel]
            simp only [insert_at_slot, hget, hc]
            exact heq
          · rw [hmodel]
            refine Rep.node ?_ (rep_frame hl ?_) hrepr hn1 hinotin ?_
            · rw [hframe i hinotin]
              exact hget
            · intro j hj
              refine hframe j ?_
              intro hmem
              rcases sInsert_idxs _ tr k v j hmem with h | h
              · exact hdis j hj h
              · exact htl_ne j hj h
            · intro j hj hmem
              rcases sInsert_idxs _ tr k v j hmem with h | h
              · exact hdis j hj h
              · exact htl_ne j hj h
          · intro j hj
            rw [hmodel] at hj
            simp only [STree.idxs, List.mem_cons, List.mem_append, not_or] at hj
            exact hframe j hj.2.2
          · rw [hmodel]
            exact hnone
          · rw [hmodel]
            exact hsome

/-- Correctness of the public `LTree::insert` on a well-formed tree: it
succeeds (hits no invalid-slot branch), simulates the functional model, and
has the stated allocation discipline. -/
theorem insert_correct (t : LTree K V) (st : STree K V) (k : K) (v : V)
    (hrep : Rep t.node_slots t.root st) (hfree : FreeInv t) :
    ∃ t2 : LTree K V,
      LTree.insert t k v = some (t2, (sInsert (new_slot t).1 st k v).2) ∧
      Rep t2.node_slots t2.root (sInsert (new_slot t).1 st k v).1 ∧
      FreeInv t2 ∧
      ((sInsert (new_slot t).1 st k v).2 = none →
        t2.free_slots = (new_slot t).2.free_slots ∧
        t2.node_slots.length = (new_slot t).2.node_slots.length ∧
        t2.node_slots[(new_slot t).1]? = some (some ⟨k, v, none, none⟩)) ∧
      (∀ w, (sInsert (new_slot t).1 st k v).2 = some w →
        t2.free_slots = t.free_slots ∧
        ∃ j nd, t.node_slots[j]? = some (some nd) ∧
          t2.node_slots = t.node_slots.set j (some { nd with v := v })) := by
  rcases hroot : t.root with _ | rs
  · -- empty tree: allocate a root slot and fill it
    have hst : st = .leaf := by
      rw [hroot] at hrep
      cases hrep
      rfl
    subst hst
    have hvac := new_slot_vacant t hfree
    have hni_lt : (new_slot t).1 < (new_slot t).2.node_slots.length :=
      lt_of_getElem?_some hvac
    refine ⟨⟨some (new_slot t).1,
      (new_slot t).2.node_slots.set (new_slot t).1 (some ⟨k, v, none, none⟩),
      (new_slot t).2.free_slots⟩, ?_, ?_, ?_, ?_, ?_⟩
    · simp only [LTree.insert, hroot, insert_at_slot, hvac, sInsert]
    · simp only [sInsert]
      refine Rep.node ?_ Rep.leaf Rep.leaf (by simp [STree.idxs])
        (by simp [STree.idxs]) (by simp [STree.idxs])
      exact set_getElem?_self _ _ hni_lt
    · refine freeInv_sets t hfree _ _ ?_
      intro s hs
      have hsni : s ≠ (new_slot t).1 :=
        fun hcontra => new_slot_idx_not_mem_free t hfree (hcontra ▸ hs)
      exact List.getElem?_set_ne (Ne.symm hsni)
    · intro _
      exact ⟨rfl, by simp, set_getElem?_self _ _ hni_lt⟩
    · intro w hw
      simp [sInsert] at hw
  · rw [hroot] at hrep
    have hle := rep_size_le hrep
    obtain ⟨t2, heq, hroot2, hrep2, hfree2, hframe, hnone, hsome⟩ :=
      insert_at_slot_correct t k v hfree st (t.node_slots.length + 1) rs hrep
        (by omega)
    refine ⟨t2, ?_, ?_, hfree2, hnone, hsome⟩
    · simp only [LTree.insert, hroot]
      exact heq
    · rw [hroot2, hroot]
      exact hrep2

theorem get_slot_correct (t : LTree K V) (q : K) :
    ∀ (st : STree K V) (fuel idx : Nat),
      Rep t.node_slots (some idx) st →
      st.size + 1 ≤ fuel →
      get_slot fuel t idx q = some (sGet st q) := by
  intro st
  induction st with
  | leaf =>
    intro fuel idx hrep hsize
    cases hrep
  | node i nk nv tl tr ihl ihr =>
    intro fuel idx hrep hsize
    cases hrep with
    | @node _ _ _ lo ro _ _ hget hl hr hn1 hn2 hdis =>
      have hsz : (STree.node i nk nv tl tr).size = tl.size + 1 + tr.size := rfl
      cases fuel with
      | zero => omega
      | succ f =>
      rcases hc : compare nk q with _ | _ | _
      · rcases lo with _ | child
        · cases hl
          simp only [get_slot, hget, hc, sGet]
        · simp only [get_slot, hget, hc, sGet]
          exact ihl f child hl (by omega)
      · simp only [get_slot, hget, hc, sGet]
      · rcases ro with _ | child
        · cases hr
          simp only [get_slot, hget, hc, sGet]
        · simp only [get_slot, hget, hc, sGet]
          exact ihr f child hr (by omega)

/-- The public `LTree::get` on a well-formed tree never hits an invalid-slot
branch, and it returns what the functional model returns. -/
theorem get_correct (t : LTree K V) (st : STree K V) (q : K)
    (hrep : Rep t.node_slots t.root st) : LTree.get t q = some (sGet st q) := by
  rcases hroot : t.root with _ | rs
  · have hst : st = .leaf := by
      rw [hroot] at hrep
      cases hrep
      rfl
    subst hst
    simp [LTree.get, hroot, sGet]
  · rw [hroot] at hrep
    have hle := rep_size_le hrep
    simp only [LTree.get, hroot]
    exact get_slot_correct t q st _ rs hrep (by omega)

theorem sInsert_snd_eq_sGet (ni : Nat) (st : STree K V) (k : K) (v : V) :
    (sInsert ni st k v).2 = sGet st k := by
  induction st with
  | leaf => simp [sInsert, sGet]
  | node i nk nv l r ihl ihr =>
    rcases hc : compare nk k with _ | _ | _ <;>
      simp [sInsert, sGet, hc, ihl, ihr]

theorem sGet_sInsert_self (ni : Nat) (st : STree K V) (k : K) (v : V) :
    sGet (sInsert ni st k v).1 k = some v := by
  induction st with
  | leaf =>
    have h : compare k k = .eq := compare_eq_iff_eq.mpr rfl
    simp [sInsert, sGet, h]
  | node i nk nv l r ihl ihr =>
    rcases hc : compare nk k with _ | _ | _ <;>
      simp [sInsert, sGet, hc, ihl, ihr]

theorem mem_skeys_sInsert {ni : Nat} {st : STree K V} {k x : K} {v : V}
    (h : x ∈ (sInsert ni st k v).1.skeys) : x ∈ st.skeys ∨ x = k := by
  induction st with
  | leaf =>
    simp [sInsert, STree.skeys] at h
    exact Or.inr h
  | node i nk nv l r ihl ihr =>
    rcases hc : compare nk k with _ | _ | _ <;>
      simp only [sInsert, hc] at h
    · simp only [STree.skeys, List.mem_append, List.mem_cons] at h ⊢
      rcases h with h | h | h
      · rcases ihl h with h' | h'
        · exact Or.inl (Or.inl h')
        · exact Or.inr h'
      · exact Or.inl (Or.inr (Or.inl h))
      · exact Or.inl (Or.inr (Or.inr h))
    · exact Or.inl h
    · simp only [STree.skeys, List.mem_append, List.mem_cons] at h ⊢
      rcases h with h | h | h
      · exact Or.inl (Or.inl h)
      · exact Or.inl (Or.inr (Or.inl h))
      · rcases ihr h with h' | h'
        · exact Or.inl (Or.inr (Or.inr h'))
        · exact Or.inr h'

theorem mbst_node_iff {i : Nat} {k : K} {v : V} {l r : STree K V} :
    (STree.node i k v l r).mbst = true ↔
      (∀ x ∈ l.skeys, k < x) ∧ (∀ y ∈ r.skeys, y < k) ∧
        l.mbst = true ∧ r.mbst = true := by
  simp [STree.mbst, List.all_eq_true, Bool.and_eq_true, and_assoc]

theorem mbst_sInsert {st : STree K V} (ni : Nat) (k : K) (v : V)
    (h : st.mbst = true) : (sInsert ni st k v).1.mbst = true := by
  induction st with
  | leaf => simp [sInsert, STree.mbst, STree.skeys]
  | node i nk nv l r ihl ihr =>
    rw [mbst_node_iff] at h
    obtain ⟨hl, hr, bl, br⟩ := h
    rcases hc : compare nk k with _ | _ | _ <;> simp only [sInsert, hc]
    · rw [mbst_node_iff]
      refine ⟨?_, hr, ihl bl, br⟩
      intro x hx
      rcases mem_skeys_sInsert hx with hx' | rfl
      · exact hl x hx'
      · exact compare_lt_iff_lt.mp hc
    · rw [mbst_node_iff]
      exact ⟨hl, hr, bl, br⟩
    · rw [mbst_node_iff]
      refine ⟨hl, ?_, bl, ihr br⟩
      intro y hy
      rcases mem_skeys_sInsert hy with hy' | rfl
      · exact hr y hy'
      · exact compare_gt_iff_gt.mp hc

theorem mbst_iff_pairwise (st : STree K V) :
    st.mbst = true ↔ st.skeys.Pairwise (fun a b => b < a) := by
  induction st with
  | leaf => simp [STree.mbst, STree.skeys]
  | node i nk nv l r ihl ihr =>
    rw [mbst_node_iff]
    simp only [STree.skeys]
    rw [List.pairwise_append, List.pairwise_cons, ihl, ihr]
    constructor
    · rintro ⟨hl, hr, pl, pr⟩
      refine ⟨pl, ⟨hr, pr⟩, ?_⟩
      intro x hx y hy
      rcases List.mem_cons.mp hy with rfl | hy
      · exact hl x hx
      · exact lt_trans (hr y hy) (hl x hx)
    · rintro ⟨pl, ⟨hr, pr⟩, hcross⟩
      exact ⟨fun x hx => hcross x hx nk (List.mem_cons_self _ _), hr, pl, pr⟩

theorem skeys_nodup_of_mbst {st : STree K V} (h : st.mbst = true) :
    st.skeys.Nodup := by
  rw [mbst_iff_pairwise] at h
  exact h.imp fun hab => (ne_of_lt hab).symm

/-- Every tree built by a sequence of public `insert` calls from a well-formed
tree is again well-formed, and its model stays mirror-ordered. -/
theorem buildFrom_wf : ∀ (ops : List (K × V)) (t : LTree K V) (st : STree K V),
    Rep t.node_slots t.root st → FreeInv t → st.mbst = true →
    ∃ (t2 : LTree K V) (st2 : STree K V), buildFrom t ops = some t2 ∧
      Rep t2.node_slots t2.root st2 ∧ FreeInv t2 ∧ st2.mbst = true := by
  intro ops
  induction ops with
  | nil =>
    intro t st hrep hfree hm
    exact ⟨t, st, rfl, hrep, hfree, hm⟩
  | cons p rest ih =>
    intro t st hrep hfree hm
    obtain ⟨t2, heq, hrep2, hfree2, _, _⟩ :=
      insert_correct t st p.1 p.2 hrep hfree
    obtain ⟨t3, st3, heq3, hrest⟩ :=
      ih t2 _ hrep2 hfree2 (mbst_sInsert _ _ _ hm)
    refine ⟨t3, st3, ?_, hrest⟩
    simp only [buildFrom, heq]
    exact heq3

theorem new_wf :
    Rep (LTree.new : LTree K V).node_slots (LTree.new : LTree K V).root
      (.leaf : STree K V) ∧
    FreeInv (LTree.new : LTree K V) ∧ (STree.leaf : STree K V).mbst = true :=
  ⟨Rep.leaf, ⟨List.nodup_nil, by intro s hs; simp [LTree.new] at hs⟩, rfl⟩

end ArenaMain

end Arena

example : Arena.buildL [((0 : Nat), (10 : Nat)), (1, 11)] =
    some ⟨some 0, [some ⟨0, 10, some 1, none⟩, some ⟨1, 11, none, none⟩], []⟩ := by
  decide

example : (Arena.buildL [((0 : Nat), (10 : Nat)), (1, 11), (1, 12)]).map
    Arena.LTree.node_slots =
    some [some ⟨0, 10, some 1, none⟩, some ⟨1, 12, none, none⟩] := by decide

example : (Arena.buildL [((5 : Nat), (50 : Nat)), (3, 30), (7, 70)]).bind
    (fun t => t.get 3) = some (some 30) := by decide


/-
  The claim theorems.
-/

/-- Claim C1: the insert/get round trip is claimed for every tree variant; it
fails for the `src/tree.rs` variant.  On the empty `tree.rs` `Tree`,
`insert(0, 0)` returns `None` and increments the cached size to `1`, but
because `self.root.as_mut().and_then(...)` is a no-op on a `None` root, no
root node is ever allocated or linked: `root` stays `None` and the immediately
following `get(0)` returns `None` instead of `Some(0)`. -/
theorem claim1_tree_rs_insert_get_round_trip_fails :
    ((TR.Tree.new : TR.Tree Nat Nat).insert 0 0).2 = none ∧
    ((TR.Tree.new : TR.Tree Nat Nat).insert 0 0).1.size = 1 ∧
    ((TR.Tree.new : TR.Tree Nat Nat).insert 0 0).1.root = none ∧
    ((TR.Tree.new : TR.Tree Nat Nat).insert 0 0).1.get 0 = none := by
  decide

/-- Claim C2, counterexample: inserting keys `0` then `1` into an empty
`LTree` produces a root node (key `0`) whose left child holds key `1`; the
represented tree violates the claimed left-strictly-less invariant. -/
theorem claim2_counterexample :
    Arena.buildL [((0 : Nat), (0 : Nat)), (1, 1)] =
      some ⟨some 0, [some ⟨0, 0, some 1, none⟩, some ⟨1, 1, none, none⟩], []⟩ ∧
    Arena.Rep [some ⟨0, 0, some 1, none⟩, some ⟨1, 1, none, none⟩] (some 0)
      (.node 0 0 0 (.node 1 1 1 .leaf .leaf) .leaf) ∧
    (Arena.STree.node 0 (0 : Nat) (0 : Nat)
      (.node 1 1 1 .leaf .leaf) .leaf).specBst = false := by
  refine ⟨by decide, ?_, by decide⟩
  refine Arena.Rep.node rfl ?_ Arena.Rep.leaf (by decide) (by decide) (by decide)
  exact Arena.Rep.node rfl Arena.Rep.leaf Arena.Rep.leaf (by decide) (by decide)
    (by decide)

/-- Claim C2 (amended): for every tree reachable from the empty tree by any
sequence of inserts, the boxed `lib.rs` variant satisfies the invariant as
stated (left-subtree keys strictly less than the node key, right-subtree keys
strictly greater, no duplicate keys); the arena `ltree.rs` variant maintains
the mirrored invariant (left-subtree keys strictly greater, right-subtree
keys strictly less), also with no duplicate keys. -/
theorem claim2_bst_invariant {K V : Type} [LinearOrder K] :
    (∀ ops : List (K × V),
      (Boxed.build ops).bst = true ∧ (Boxed.build ops).keys.Nodup) ∧
    (∀ ops : List (K × V), ∃ (t : Arena.LTree K V) (st : Arena.STree K V),
      Arena.buildL ops = some t ∧
      Arena.Rep t.node_slots t.root st ∧
      st.mbst = true ∧ st.skeys.Nodup) := by
  constructor
  · intro ops
    have hb := Boxed.bst_build (V := V) ops
    refine ⟨hb, ?_⟩
    have hp := (Boxed.bst_iff_pairwise _).mp hb
    exact hp.imp fun hab => ne_of_lt hab
  · intro ops
    obtain ⟨t2, st2, heq, hrep, hfree, hm⟩ :=
      Arena.buildFrom_wf ops Arena.LTree.new .leaf Arena.new_wf.1
        Arena.new_wf.2.1 Arena.new_wf.2.2
    exact ⟨t2, st2, heq, hrep, hm, Arena.skeys_nodup_of_mbst hm⟩

/-- Claim C3: for every tree built by a sequence of inserts, consecutive
key/value pairs emitted by the explicit-stack iterator have strictly
ascending keys. -/
theorem claim3_iter_ascending {K V : Type} [LinearOrder K]
    (ops : List (K × V)) :
    List.Chain' (fun p q : K × V => p.1 < q.1)
      (Boxed.iterPairs (Boxed.build ops)) := by
  rw [Boxed.iterPairs_eq_inorder]
  have hb := Boxed.bst_build (V := V) ops
  have hp := (Boxed.bst_iff_pairwise _).mp hb
  have hpp : ((Boxed.build ops).inorder).Pairwise
      (fun p q : K × V => p.1 < q.1) := by
    rw [Boxed.Tree.keys] at hp
    exact (List.pairwise_map).mp hp
  exact hpp.chain'

/-- Claim C4: on any tree not containing `k`, inserting `(k, v1)` returns
`None`, a second insert of `(k, v2)` returns `Some v1` and stores `v2`, a
following `get k` returns `Some v2` and `len` is unchanged by the second
insert; the same return-value/get behaviour holds for the arena variant
(which exposes no `len`). -/
theorem claim4_update_semantics {K V : Type} [LinearOrder K]
    (t : Boxed.Tree K V) (k : K) (v1 v2 : V) (habs : t.get k = none) :
    ((t.insert k v1).2 = none ∧
      ((t.insert k v1).1.insert k v2).2 = some v1 ∧
      ((t.insert k v1).1.insert k v2).1.get k = some v2 ∧
      ((t.insert k v1).1.insert k v2).1.len = (t.insert k v1).1.len) ∧
    (∀ (ta : Arena.LTree K V) (sta : Arena.STree K V),
      Arena.Rep ta.node_slots ta.root sta → Arena.FreeInv ta →
      Arena.sGet sta k = none →
      ∃ (t1 t2 : Arena.LTree K V),
        Arena.LTree.insert ta k v1 = some (t1, none) ∧
        (∃ ret2, Arena.LTree.insert t1 k v2 = some (t2, ret2) ∧
          ret2 = some v1) ∧
        Arena.LTree.get t2 k = some (some v2)) := by
  constructor
  · refine ⟨?_, ?_, ?_, ?_⟩
    · rw [Boxed.insert_snd_eq_get]
      exact habs
    · rw [Boxed.insert_snd_eq_get]
      exact Boxed.get_insert_self ..
    · exact Boxed.get_insert_self ..
    · apply Boxed.len_insert_of_found
      rw [Boxed.insert_snd_eq_get, Boxed.get_insert_self]
      rfl
  · intro ta sta hrep hfree habsa
    obtain ⟨t1, heq1, hrep1, hfree1, _, _⟩ :=
      Arena.insert_correct ta sta k v1 hrep hfree
    rw [Arena.sInsert_snd_eq_sGet, habsa] at heq1
    obtain ⟨t2, heq2, hrep2, hfree2, _, _⟩ :=
      Arena.insert_correct t1 _ k v2 hrep1 hfree1
    refine ⟨t1, t2, heq1, ⟨_, heq2, ?_⟩, ?_⟩
    · rw [Arena.sInsert_snd_eq_sGet, Arena.sGet_sInsert_self]
    · rw [Arena.get_correct t2 _ k hrep2, Arena.sGet_sInsert_self]

/-- Witness for claim C4 at a concrete input. -/
theorem claim4_witness :
    (Boxed.Tree.node 5 50 .nil .nil : Boxed.Tree Nat Nat).get 3 = none ∧
    ((Boxed.Tree.node 5 50 .nil .nil : Boxed.Tree Nat Nat).insert 3 7).2 =
      none := by
  have h := claim4_update_semantics
    (Boxed.Tree.node 5 50 .nil .nil : Boxed.Tree Nat Nat) 3 7 8 (by decide)
  exact ⟨by decide, h.1.1⟩

/-- Claim C5: `rotate_r` followed by `rotate_l` restores any subtree whose
root has a left child, and symmetrically `rotate_l` then `rotate_r` restores
any subtree whose root has a right child. -/
theorem claim5_rotation_roundtrip {K V : Type} (t : Boxed.Tree K V) :
    (t.left ≠ .nil → Boxed.rotate_l (Boxed.rotate_r t) = t) ∧
    (t.right ≠ .nil → Boxed.rotate_r (Boxed.rotate_l t) = t) := by
  constructor
  · intro h
    rcases t with _ | ⟨k, v, l, r⟩
    · exact absurd rfl h
    · rcases l with _ | ⟨lk, lv, ll, lr⟩
      · exact absurd rfl h
      · simp [Boxed.rotate_r, Boxed.rotate_l]
  · intro h
    rcases t with _ | ⟨k, v, l, r⟩
    · exact absurd rfl h
    · rcases r with _ | ⟨rk, rv, rl, rr⟩
      · exact absurd rfl h
      · simp [Boxed.rotate_r, Boxed.rotate_l]

/-- Witness for claim C5 at a concrete subtree with both children. -/
theorem claim5_witness :
    ((Boxed.Tree.node 2 20 (.node 1 10 .nil .nil) (.node 3 30 .nil .nil) :
        Boxed.Tree Nat Nat).left ≠ .nil ∧
      Boxed.rotate_l (Boxed.rotate_r
        (Boxed.Tree.node 2 20 (.node 1 10 .nil .nil) (.node 3 30 .nil .nil))) =
        Boxed.Tree.node 2 20 (.node 1 10 .nil .nil) (.node 3 30 .nil .nil)) ∧
    ((Boxed.Tree.node 2 20 (.node 1 10 .nil .nil) (.node 3 30 .nil .nil) :
        Boxed.Tree Nat Nat).right ≠ .nil ∧
      Boxed.rotate_r (Boxed.rotate_l
        (Boxed.Tree.node 2 20 (.node 1 10 .nil .nil) (.node 3 30 .nil .nil))) =
        Boxed.Tree.node 2 20 (.node 1 10 .nil .nil) (.node 3 30 .nil .nil)) :=
  ⟨⟨by decide, (claim5_rotation_roundtrip _).1 (by decide)⟩,
    ⟨by decide, (claim5_rotation_roundtrip _).2 (by decide)⟩⟩

/-- Claim C6: on a subtree satisfying the BST ordering invariant, both
rotations preserve the invariant, preserve the in-order sequence of key/value
pairs (hence the multiset of pairs), and preserve the node count (no node is
created or dropped). -/
theorem claim6_rotation_postcondition {K V : Type} [LinearOrder K]
    (t : Boxed.Tree K V) (hb : t.bst = true) :
    (Boxed.rotate_r t).bst = true ∧ (Boxed.rotate_l t).bst = true ∧
    (Boxed.rotate_r t).inorder = t.inorder ∧
    (Boxed.rotate_l t).inorder = t.inorder ∧
    (Boxed.rotate_r t).len = t.len ∧ (Boxed.rotate_l t).len = t.len :=
  ⟨Boxed.bst_rotate_r hb, Boxed.bst_rotate_l hb, Boxed.inorder_rotate_r t,
    Boxed.inorder_rotate_l t, Boxed.len_rotate_r t, Boxed.len_rotate_l t⟩

/-- Witness for claim C6 at a concrete BST. -/
theorem claim6_witness :
    (Boxed.Tree.node 2 20 (.node 1 10 .nil .nil) (.node 3 30 .nil .nil) :
      Boxed.Tree Nat Nat).bst = true ∧
    (Boxed.rotate_r (Boxed.Tree.node 2 20 (.node 1 10 .nil .nil)
      (.node 3 30 .nil .nil) : Boxed.Tree Nat Nat)).bst = true :=
  ⟨by decide, (claim6_rotation_postcondition _ (by decide)).1⟩

/-- Claim C7: `rotate_r` is an exact no-op on any subtree whose root has no
left child (including the empty subtree), and `rotate_l` on any subtree whose
root has no right child; neither signals an error. -/
theorem claim7_rotation_noop {K V : Type} (t : Boxed.Tree K V) :
    (t.left = .nil → Boxed.rotate_r t = t) ∧
    (t.right = .nil → Boxed.rotate_l t = t) := by
  constructor
  · intro h
    rcases t with _ | ⟨k, v, l, r⟩
    · rfl
    · have hl : l = .nil := by simpa [Boxed.Tree.left] using h
      subst hl
      rfl
  · intro h
    rcases t with _ | ⟨k, v, l, r⟩
    · rfl
    · have hr : r = .nil := by simpa [Boxed.Tree.right] using h
      subst hr
      rfl

/-- Witness for claim C7: the empty subtree and a root missing the pivot
child are both left unchanged. -/
theorem claim7_witness :
    (Boxed.rotate_r (.nil : Boxed.Tree Nat Nat) = .nil ∧
      Boxed.rotate_l (.nil : Boxed.Tree Nat Nat) = .nil) ∧
    (Boxed.rotate_r (Boxed.Tree.node 1 10 .nil (.node 2 20 .nil .nil) :
        Boxed.Tree Nat Nat) =
      Boxed.Tree.node 1 10 .nil (.node 2 20 .nil .nil)) :=
  ⟨⟨(claim7_rotation_noop _).1 rfl, (claim7_rotation_noop _).2 rfl⟩,
    (claim7_rotation_noop _).1 (by decide)⟩

/-- Claim C8: on every well-formed arena tree, an `LTree::insert` that adds a
new key (returns `None`) performs exactly one allocation — popping the most
recently freed slot when the free list is non-empty, otherwise appending one
slot — and an insert that updates an existing key (returns `Some`) performs
no allocation: the free list is unchanged and the slot vector changes only by
replacing the stored value in the existing node's slot. -/
theorem claim8_allocation_discipline {K V : Type} [LinearOrder K]
    (t : Arena.LTree K V) (st : Arena.STree K V) (k : K) (v : V)
    (hrep : Arena.Rep t.node_slots t.root st) (hfree : Arena.FreeInv t) :
    ∃ (t2 : Arena.LTree K V) (ret : Option V),
      Arena.LTree.insert t k v = some (t2, ret) ∧
      (ret = none →
        (t.free_slots = [] →
          t2.node_slots.length = t.node_slots.length + 1 ∧
          t2.free_slots = [] ∧
          t2.node_slots[t.node_slots.length]? = some (some ⟨k, v, none, none⟩)) ∧
        (∀ s, t.free_slots.getLast? = some s →
          t2.node_slots.length = t.node_slots.length ∧
          t2.free_slots = t.free_slots.dropLast ∧
          t2.node_slots[s]? = some (some ⟨k, v, none, none⟩))) ∧
      (∀ w, ret = some w →
        t2.free_slots = t.free_slots ∧
        t2.node_slots.length = t.node_slots.length ∧
        ∃ j nd, t.node_slots[j]? = some (some nd) ∧
          t2.node_slots = t.node_slots.set j (some { nd with v := v })) := by
  obtain ⟨t2, heq, _, _, hnone, hsome⟩ := Arena.insert_correct t st k v hrep hfree
  refine ⟨t2, _, heq, ?_, ?_⟩
  · intro hret
    obtain ⟨hf, hlen, hni⟩ := hnone hret
    constructor
    · intro hfe
      have h1 : (Arena.new_slot t).1 = t.node_slots.length := by
        simp [Arena.new_slot, hfe]
      have h2 : (Arena.new_slot t).2.node_slots = t.node_slots ++ [none] := by
        simp [Arena.new_slot, hfe]
      have h3 : (Arena.new_slot t).2.free_slots = [] := by
        simp [Arena.new_slot, hfe]
      rw [h2] at hlen
      rw [h3] at hf
      rw [h1] at hni
      exact ⟨by simpa using hlen, hf, hni⟩
    · intro s hs
      have h1 : (Arena.new_slot t).1 = s := by simp [Arena.new_slot, hs]
      have h2 : (Arena.new_slot t).2.node_slots = t.node_slots := by
        simp [Arena.new_slot, hs]
      have h3 : (Arena.new_slot t).2.free_slots = t.free_slots.dropLast := by
        simp [Arena.new_slot, hs]
      rw [h2] at hlen
      rw [h3] at hf
      rw [h1] at hni
      exact ⟨hlen, hf, hni⟩
  · intro w hw
    obtain ⟨hf, j, nd, hj, hset⟩ := hsome w hw
    refine ⟨hf, by rw [hset]; simp, j, nd, hj, hset⟩

/-- Witness for claim C8: a well-formed one-node arena tree whose free list
holds the vacant slot `1`; inserting a new key pops that slot. -/
theorem claim8_witness :
    (Arena.Rep [some ⟨5, 50, none, none⟩, none] (some 0)
        (Arena.STree.node 0 (5 : Nat) (50 : Nat) .leaf .leaf) ∧
      Arena.FreeInv (⟨some 0, [some ⟨5, 50, none, none⟩, none], [1]⟩ :
        Arena.LTree Nat Nat)) ∧
    (∃ (t2 : Arena.LTree Nat Nat) (ret : Option Nat),
      Arena.LTree.insert
        (⟨some 0, [some ⟨5, 50, none, none⟩, none], [1]⟩ : Arena.LTree Nat Nat)
        7 70 = some (t2, ret) ∧
      (ret = none →
        ((⟨some 0, [some ⟨5, 50, none, none⟩, none], [1]⟩ :
            Arena.LTree Nat Nat).free_slots = [] →
          t2.node_slots.length = 2 + 1 ∧
          t2.free_slots = [] ∧
          t2.node_slots[(2 : Nat)]? = some (some ⟨7, 70, none, none⟩)) ∧
        (∀ s, ([1] : List Nat).getLast? = some s →
          t2.node_slots.length = 2 ∧
          t2.free_slots = ([1] : List Nat).dropLast ∧
          t2.node_slots[s]? = some (some ⟨7, 70, none, none⟩))) ∧
      (∀ w, ret = some w →
        t2.free_slots = [1] ∧
        t2.node_slots.length = 2 ∧
        ∃ j nd,
          ([some ⟨5, 50, none, none⟩, none] :
            List (Option (Arena.LNode Nat Nat)))[j]? = some (some nd) ∧
          t2.node_slots = ([some ⟨5, 50, none, none⟩, none] :
            List (Option (Arena.LNode Nat Nat))).set j
              (some { nd with v := 70 }))) := by
  have hrep : Arena.Rep [some ⟨5, 50, none, none⟩, none] (some 0)
      (Arena.STree.node 0 (5 : Nat) (50 : Nat) .leaf .leaf) :=
    Arena.Rep.node rfl Arena.Rep.leaf Arena.Rep.leaf (by decide) (by decide)
      (by decide)
  have hfree : Arena.FreeInv (⟨some 0, [some ⟨5, 50, none, none⟩, none], [1]⟩ :
      Arena.LTree Nat Nat) := by
    constructor
    · decide
    · intro s hs
      have : s = 1 := by simpa using hs
      subst this
      rfl
  exact ⟨⟨hrep, hfree⟩,
    claim8_allocation_discipline
      (⟨some 0, [some ⟨5, 50, none, none⟩, none], [1]⟩ : Arena.LTree Nat Nat)
      (Arena.STree.node 0 (5 : Nat) (50 : Nat) .leaf .leaf) 7 70 hrep hfree⟩

/-- Claim C9: starting from the empty arena tree, any sequence of public
inserts succeeds and yields a well-formed tree (every stored root/child index
refers to an in-range occupied slot, witnessed by `Rep`), and on that tree
every further public `get` and `insert` also succeeds — the invalid-slot
failure branches (modelled by the `none` results) are unreachable through the
public surface. -/
theorem claim9_invalid_slot_unreachable {K V : Type} [LinearOrder K]
    (ops : List (K × V)) :
    ∃ t : Arena.LTree K V, Arena.buildL ops = some t ∧
      (∃ st, Arena.Rep t.node_slots t.root st) ∧
      (∀ q : K, ∃ r, Arena.LTree.get t q = some r) ∧
      (∀ (k : K) (v : V), ∃ res, Arena.LTree.insert t k v = some res) := by
  obtain ⟨t2, st2, heq, hrep, hfree, _⟩ :=
    Arena.buildFrom_wf ops Arena.LTree.new .leaf Arena.new_wf.1
      Arena.new_wf.2.1 Arena.new_wf.2.2
  refine ⟨t2, heq, ⟨st2, hrep⟩, ?_, ?_⟩
  · intro q
    exact ⟨_, Arena.get_correct t2 st2 q hrep⟩
  · intro k v
    obtain ⟨t3, heq3, _⟩ := Arena.insert_correct t2 st2 k v hrep hfree
    exact ⟨_, heq3⟩

/-- Claim C10: for every tree built by a sequence of inserts, the iterator is
finite (it produces a list), emits exactly `len()` pairs, emits `(k, v)`
exactly when `v` is the most recently inserted value for the distinct key
`k`, and emits nothing on the empty tree. -/
theorem claim10_iteration_complete {K V : Type} [LinearOrder K]
    (ops : List (K × V)) :
    (Boxed.iterPairs (Boxed.build ops)).length = (Boxed.build ops).len ∧
    (∀ (k : K) (v : V),
      (k, v) ∈ Boxed.iterPairs (Boxed.build ops) ↔
        Boxed.lastVal ops k = some v) ∧
    Boxed.iterPairs (Boxed.Tree.nil : Boxed.Tree K V) = [] := by
  refine ⟨?_, ?_, ?_⟩
  · rw [Boxed.iterPairs_eq_inorder, Boxed.inorder_length]
  · intro k v
    rw [Boxed.iterPairs_eq_inorder, ← Boxed.get_build]
    constructor
    · intro hmem
      exact Boxed.get_of_mem_inorder (Boxed.bst_build ops) hmem
    · intro hget
      exact Boxed.mem_inorder_of_get hget
  · rw [Boxed.iterPairs_eq_inorder]
    rfl
